import Mathlib

/-!
Verification of the demographic aggregation pipeline of
`exceltovisualization-interface.py`: age bucketing, caste normalization,
gender counting and percentages, localized digit rendering, and the
top-N caste/gender cross-tabulation.

Numeric cell values are modelled as exact rationals, missing values as
`Option`, and pandas Series operations as operations on Lean lists.
-/

namespace ExcelViz

/-- One spreadsheet row: numeric age (`उमेर`), gender (`लिङ्ग`, possibly
missing/NaN, which pandas drops from `value_counts` and `groupby`), and the
caste string (`जाति`, always a string after `astype(str)`). -/
structure Record where
  age : ℚ
  gender : Option String
  caste : String
deriving DecidableEq, Repr

/-! ### Localized digit rendering (`convert_to_nepali_number`) -/

/-- The string `eng = '0123456789'` as a character list. -/
def engDigits : List Char := ['0', '1', '2', '3', '4', '5', '6', '7', '8', '9']

/-- The string `nep = '०१२३४५६७८९'` as a character list. -/
def nepDigits : List Char := ['०', '१', '२', '३', '४', '५', '६', '७', '८', '९']

/-- Python's `lst.index(c)` guarded by `c in lst`: the first index of `c`,
or `none` when `c` does not occur. -/
def indexInList (c : Char) : List Char → Option ℕ
  | [] => none
  | d :: ds => if d == c then some 0 else (indexInList c ds).map (· + 1)

/-- The per-character body of the comprehension:
`nep[eng.index(ch)] if ch in eng else ch`. -/
def convertChar (c : Char) : Char :=
  match indexInList c engDigits with
  | some i => nepDigits.getD i c
  | none => c

/-- The function `convert_to_nepali_number`: map `convertChar` over the characters of the
string form of the value and rejoin. -/
def convert_to_nepali_number (s : String) : String :=
  ⟨s.data.map convertChar⟩

/-! ### Age bucketing (`categorize_age`) -/

/-- The function `categorize_age` exactly as the script writes it:
`if age < 20 ... elif age <= 35 ... elif age <= 50 ... else '51+'`. -/
def categorize_age (age : ℚ) : String :=
  if age < 20 then "<20"
  else if age ≤ 35 then "21–35"
  else if age ≤ 50 then "36–50"
  else "51+"

/-- The fixed bucket order `['<20', '21–35', '36–50', '51+']`. -/
def bucketOrder : List String := ["<20", "21–35", "36–50", "51+"]

/-- The age-bucket rules exactly as the specification words them, taken as a
guarded chain: `age<20 → bucket1; 20<age≤35 → bucket2; 35<age≤50 → bucket3;
else → bucket4`.  This definition follows the spec's words, for comparison
with `categorize_age`, which follows the code. -/
def specBucketRules (age : ℚ) : String :=
  if age < 20 then "<20"
  else if 20 < age ∧ age ≤ 35 then "21–35"
  else if 35 < age ∧ age ≤ 50 then "36–50"
  else "51+"

/-- C1 (counterexample): at age `20` the code returns the `21–35` bucket while
the spec's literal interval rules (`20 < age ≤ 35`) fall through to `51+`,
so `categorize_age` does not agree with the spec's rules. -/
theorem c1_age20_counterexample :
    categorize_age 20 = "21–35" ∧ specBucketRules 20 = "51+" ∧
      categorize_age 20 ≠ specBucketRules 20 := by
  refine ⟨?_, ?_, ?_⟩ <;> first | decide | norm_num [categorize_age, specBucketRules]

/-- C1 (amended): `categorize_age` agrees with the closed interval rules once
the second rule reads `20 ≤ age ≤ 35`: the four rules
`age<20 → '<20'; 20≤age≤35 → '21–35'; 35<age≤50 → '36–50'; 50<age → '51+'`
partition all ages with no gaps or overlaps (each age, in particular 20,
satisfies exactly one rule, and the bucket is characterized by it). -/
theorem c1_age_bucket_characterization (a : ℚ) :
    (categorize_age a = "<20" ↔ a < 20) ∧
    (categorize_age a = "21–35" ↔ 20 ≤ a ∧ a ≤ 35) ∧
    (categorize_age a = "36–50" ↔ 35 < a ∧ a ≤ 50) ∧
    (categorize_age a = "51+" ↔ 50 < a) := by
  unfold categorize_age
  split_ifs with h1 h2 h3 <;>
    refine ⟨?_, ?_, ?_, ?_⟩ <;> constructor <;> intro h <;>
    first
      | rfl
      | (constructor <;> linarith)
      | linarith
      | (exfalso; linarith)
      | (exfalso; obtain ⟨ha, hb⟩ := h; linarith)
      | simp_all

/-! ### Caste normalization: `.str.strip().replace({...})` -/

/-- Python `str.strip()` on a character list: drop whitespace from the front,
then from the back (modelled with `Char.isWhitespace`). -/
def pyStripChars (l : List Char) : List Char :=
  ((l.dropWhile Char.isWhitespace).reverse.dropWhile Char.isWhitespace).reverse

/-- Python `str.strip()` on strings. -/
def pyStrip (s : String) : String := ⟨pyStripChars s.data⟩

/-- The caste-column cleaning of line 28–30: strip, then exact-match
replacement by the fixed synonym dictionary
`{'गुरुङ्ग': 'गुरुङ', 'गुरूङ्ग': 'गुरुङ', 'गुरूङ': 'गुरुङ'}`
(pandas `Series.replace` with a dict replaces whole cell values that
exactly equal a key). -/
def normalizeCaste (x : String) : String :=
  let t := pyStrip x
  if t = "गुरुङ्ग" then "गुरुङ"
  else if t = "गुरूङ्ग" then "गुरुङ"
  else if t = "गुरूङ" then "गुरुङ"
  else t

lemma dropWhile_dropWhile_self {α : Type} (p : α → Bool) (l : List α) :
    (l.dropWhile p).dropWhile p = l.dropWhile p := by
  induction l with
  | nil => rfl
  | cons a as ih =>
      by_cases h : p a
      · simp [List.dropWhile_cons, h, ih]
      · simp [List.dropWhile_cons, h]

lemma dropWhile_eq_self_of_isPrefix {α : Type} {p : α → Bool} {m m' : List α}
    (hm : m.dropWhile p = m) (hp : m' <+: m) : m'.dropWhile p = m' := by
  cases m' with
  | nil => rfl
  | cons a as =>
      cases m with
      | nil => exact absurd (List.IsPrefix.length_le hp) (by simp)
      | cons b bs =>
          have hab : a = b := by
            obtain ⟨t, ht⟩ := hp
            exact (List.cons.injEq a (as ++ t) b bs ▸ ht).1
          have hpb : p b = false := by
            by_cases hb : p b
            · rw [List.dropWhile_cons, if_pos hb] at hm
              have := List.Sublist.length_le (List.dropWhile_sublist (l := bs) p)
              rw [hm] at this
              simp at this
            · simpa using hb
          rw [List.dropWhile_cons, hab, hpb]
          simp

lemma pyStripChars_idem (l : List Char) :
    pyStripChars (pyStripChars l) = pyStripChars l := by
  unfold pyStripChars
  set p := Char.isWhitespace with hp
  set L := l.dropWhile p with hL
  set R := (L.reverse.dropWhile p).reverse with hR
  have hRrev : R.reverse = L.reverse.dropWhile p := by
    rw [hR, List.reverse_reverse]
  have hRL : R <+: L := by
    have hsuf : R.reverse <:+ L.reverse := by
      rw [hRrev]; exact List.dropWhile_suffix p
    exact List.reverse_suffix.mp hsuf
  have hRfix : R.dropWhile p = R :=
    dropWhile_eq_self_of_isPrefix (dropWhile_dropWhile_self p l) hRL
  have hRrevfix : R.reverse.dropWhile p = R.reverse := by
    rw [hRrev]; exact dropWhile_dropWhile_self p L.reverse
  rw [hRfix, hRrevfix, List.reverse_reverse]

lemma pyStrip_idem (s : String) : pyStrip (pyStrip s) = pyStrip s := by
  unfold pyStrip
  exact congrArg String.mk (pyStripChars_idem s.data)

lemma pyStrip_canonical : pyStrip "गुरुङ" = "गुरुङ" := by decide

/-- C7: caste normalization (strip, then exact-match synonym replacement)
is idempotent: `normalize(normalize(x)) = normalize(x)` for every string. -/
theorem c7_normalizeCaste_idem (x : String) :
    normalizeCaste (normalizeCaste x) = normalizeCaste x := by
  have hidem := pyStrip_idem x
  unfold normalizeCaste
  dsimp only
  by_cases h1 : pyStrip x = "गुरुङ्ग"
  · simp [h1, pyStrip_canonical]
  · by_cases h2 : pyStrip x = "गुरूङ्ग"
    · simp [h1, h2, pyStrip_canonical]
    · by_cases h3 : pyStrip x = "गुरूङ"
      · simp [h1, h2, h3, pyStrip_canonical]
      · simp [h1, h2, h3, hidem]

/-- C8: normalization strips leading/trailing whitespace, sends each of the
three listed misspellings (after stripping) to the canonical `गुरुङ`, and
passes every other stripped string through unchanged. -/
theorem c8_normalizeCaste_spec (x : String) :
    (pyStrip x = "गुरुङ्ग" ∨ pyStrip x = "गुरूङ्ग" ∨ pyStrip x = "गुरूङ" →
      normalizeCaste x = "गुरुङ") ∧
    (pyStrip x ≠ "गुरुङ्ग" → pyStrip x ≠ "गुरूङ्ग" → pyStrip x ≠ "गुरूङ" →
      normalizeCaste x = pyStrip x) := by
  unfold normalizeCaste
  constructor
  · rintro (h | h | h) <;> simp [h]
  · intro h1 h2 h3
    simp [h1, h2, h3]

theorem c8_witness :
    normalizeCaste " गुरूङ " = "गुरुङ" ∧ normalizeCaste "ब्राह्मण" = "ब्राह्मण" := by
  constructor
  · exact (c8_normalizeCaste_spec " गुरूङ ").1 (by right; right; decide)
  · exact (c8_normalizeCaste_spec "ब्राह्मण").2 (by decide) (by decide) (by decide)

/-! ### Claims C6 and C9 -/

lemma categorize_age_mem_bucketOrder (a : ℚ) : categorize_age a ∈ bucketOrder := by
  unfold categorize_age
  split_ifs <;> simp [bucketOrder]

/-- C6: `categorize_age` is a total function whose result is always one of the
four fixed categories, and it is monotone: a larger age never gets a bucket
with a smaller index in the fixed order. -/
theorem c6_categorize_age_total_monotone :
    (∀ a : ℚ, categorize_age a ∈ bucketOrder) ∧
    (∀ a b : ℚ, a ≤ b →
        bucketOrder.indexOf (categorize_age a) ≤
          bucketOrder.indexOf (categorize_age b)) := by
  refine ⟨categorize_age_mem_bucketOrder, ?_⟩
  intro a b hab
  unfold categorize_age
  split_ifs <;> first | decide | (exfalso; linarith)

theorem c6_witness :
    bucketOrder.indexOf (categorize_age 18) ≤ bucketOrder.indexOf (categorize_age 40) :=
  c6_categorize_age_total_monotone.2 18 40 (by norm_num)

lemma convertChar_not_digit {c : Char} (h : c ∉ engDigits) : convertChar c = c := by
  have h0 : indexInList c engDigits = none := by
    simp only [engDigits, List.mem_cons, List.not_mem_nil, or_false, not_or] at h
    obtain ⟨h1, h2, h3, h4, h5, h6, h7, h8, h9, h10⟩ := h
    simp [indexInList, engDigits, beq_iff_eq,
      Ne.symm h1, Ne.symm h2, Ne.symm h3, Ne.symm h4, Ne.symm h5,
      Ne.symm h6, Ne.symm h7, Ne.symm h8, Ne.symm h9, Ne.symm h10]
  rw [convertChar, h0]

/-- C9: `convert_to_nepali_number` preserves the character count of its
input, sends each ASCII digit to the Devanagari digit at the same position
of the substitution table, and leaves every non-digit character unchanged. -/
theorem c9_convert_to_nepali_number_spec :
    (∀ s : String, (convert_to_nepali_number s).length = s.length) ∧
    (∀ p ∈ engDigits.zip nepDigits, convertChar p.1 = p.2) ∧
    (∀ c : Char, c ∉ engDigits → convertChar c = c) := by
  refine ⟨?_, ?_, fun c h => convertChar_not_digit h⟩
  · intro s
    cases s with
    | mk l => simp [convert_to_nepali_number, String.length]
  · decide

theorem c9_witness :
    convertChar '7' = '७' ∧ convertChar 'x' = 'x' :=
  ⟨c9_convert_to_nepali_number_spec.2.1 ('7', '७') (by decide),
   c9_convert_to_nepali_number_spec.2.2 'x' (by decide)⟩

/-! ### pandas `value_counts` and the count aggregates -/

/-- Model of `Series.value_counts()` on a list of (non-missing) values: the distinct
values paired with their occurrence counts, sorted by count in descending
order.  pandas does not specify the order among count ties; the model fixes
it with a stable insertion sort over `List.dedup`. -/
def valueCounts (l : List String) : List (String × ℕ) :=
  List.insertionSort (fun p q => p.2 ≥ q.2) (l.dedup.map fun k => (k, l.count k))

/-- Model of `df['Age Group'].value_counts().reindex(order, fill_value=0)` (line 49):
for every bucket of the fixed order, in that order, its count (filled with
`0` when the bucket is absent from the data). -/
def age_counts (rs : List Record) : List (String × ℕ) :=
  let vc := valueCounts (rs.map fun r => categorize_age r.age)
  bucketOrder.map fun b => (b, (vc.lookup b).getD 0)

/-- The non-missing gender values of the rows, in row order (pandas drops
NaN both in `value_counts` and as a `groupby` key). -/
def genderValues (rs : List Record) : List String :=
  rs.filterMap fun r => r.gender

/-- Model of `df['लिङ्ग'].value_counts()` (line 72). -/
def gender_counts (rs : List Record) : List (String × ℕ) :=
  valueCounts (genderValues rs)

lemma map_fst_map_pair {β γ : Type} (ks : List β) (f : β → γ) :
    (ks.map fun k => (k, f k)).map Prod.fst = ks := by
  induction ks with
  | nil => rfl
  | cons a t ih => simp [ih]

lemma map_snd_map_pair {β γ : Type} (ks : List β) (f : β → γ) :
    (ks.map fun k => (k, f k)).map Prod.snd = ks.map f := by
  induction ks with
  | nil => rfl
  | cons a t ih => simp [ih]

lemma valueCounts_perm (l : List String) :
    List.Perm (valueCounts l) (l.dedup.map fun k => (k, l.count k)) :=
  List.perm_insertionSort _ _

lemma valueCounts_keys_perm (l : List String) :
    List.Perm ((valueCounts l).map Prod.fst) l.dedup := by
  have h := (valueCounts_perm l).map Prod.fst
  rw [map_fst_map_pair] at h
  exact h

lemma valueCounts_keys_nodup (l : List String) :
    ((valueCounts l).map Prod.fst).Nodup :=
  ((valueCounts_keys_perm l).nodup_iff).mpr l.nodup_dedup

lemma lookup_eq_some_of_mem {l : List (String × ℕ)} {k : String} {v : ℕ}
    (hnd : (l.map Prod.fst).Nodup) (hm : (k, v) ∈ l) : l.lookup k = some v := by
  induction l with
  | nil => cases hm
  | cons p t ih =>
      obtain ⟨a, b⟩ := p
      rcases List.mem_cons.mp hm with heq | hmt
      · obtain ⟨rfl, rfl⟩ := Prod.mk.injEq .. ▸ heq
        simp [List.lookup]
      · have hka : k ≠ a := by
          rintro rfl
          exact (List.nodup_cons.mp (by simpa using hnd)).1
            (List.mem_map_of_mem Prod.fst hmt)
        have hbeq : (k == a) = false := beq_eq_false_iff_ne.mpr hka
        simp only [List.lookup, hbeq]
        exact ih (List.nodup_cons.mp (by simpa using hnd)).2 hmt

lemma lookup_eq_none_of_not_mem {l : List (String × ℕ)} {k : String}
    (h : k ∉ l.map Prod.fst) : l.lookup k = none := by
  induction l with
  | nil => rfl
  | cons p t ih =>
      obtain ⟨a, b⟩ := p
      have hka : k ≠ a := by
        rintro rfl
        exact h (by simp)
      have hbeq : (k == a) = false := beq_eq_false_iff_ne.mpr hka
      simp only [List.lookup, hbeq]
      exact ih fun hm => h (by simp [hm])

lemma valueCounts_lookup (l : List String) (k : String) :
    (valueCounts l).lookup k = if k ∈ l then some (l.count k) else none := by
  by_cases h : k ∈ l
  · rw [if_pos h]
    apply lookup_eq_some_of_mem (valueCounts_keys_nodup l)
    exact ((valueCounts_perm l).mem_iff).mpr
      (List.mem_map_of_mem _ (List.mem_dedup.mpr h))
  · rw [if_neg h]
    apply lookup_eq_none_of_not_mem
    intro hm
    exact h (List.mem_dedup.mp (((valueCounts_keys_perm l).mem_iff).mp hm))

lemma getD_lookup_valueCounts (l : List String) (k : String) :
    ((valueCounts l).lookup k).getD 0 = l.count k := by
  rw [valueCounts_lookup]
  by_cases h : k ∈ l
  · simp [h]
  · simp [h, List.count_eq_zero_of_not_mem h]

lemma sum_map_ite_count {β : Type} [BEq β] [LawfulBEq β] (ks : List β) (a : β) :
    (ks.map fun k => if a == k then 1 else 0).sum = ks.count a := by
  induction ks with
  | nil => rfl
  | cons b t ih =>
      rw [List.map_cons, List.sum_cons, ih, List.count_cons]
      by_cases hab : b = a
      · subst hab
        simp [Nat.add_comm]
      · simp [hab, Ne.symm hab]

lemma count_eq_one_of_nodup_mem {β : Type} [BEq β] [LawfulBEq β] {a : β}
    {ks : List β} (hnd : ks.Nodup) (ha : a ∈ ks) : ks.count a = 1 := by
  induction ks with
  | nil => cases ha
  | cons b t ih =>
      rw [List.count_cons]
      rcases List.mem_cons.mp ha with rfl | hat
      · rw [List.count_eq_zero_of_not_mem (List.nodup_cons.mp hnd).1]
        simp
      · have hba : b ≠ a := by
          rintro rfl
          exact (List.nodup_cons.mp hnd).1 hat
        rw [ih (List.nodup_cons.mp hnd).2 hat]
        simp [hba, Ne.symm hba]

lemma sum_map_add_nat {β : Type} (ks : List β) (f g : β → ℕ) :
    (ks.map fun k => f k + g k).sum = (ks.map f).sum + (ks.map g).sum := by
  induction ks with
  | nil => rfl
  | cons b u ih =>
      rw [List.map_cons, List.map_cons, List.map_cons,
        List.sum_cons, List.sum_cons, List.sum_cons, ih]
      omega

/-- Counting a list against a duplicate-free list of keys that covers all of
its elements recovers its length. -/
lemma sum_map_count_eq_length {β : Type} [BEq β] [LawfulBEq β] (l ks : List β)
    (hnd : ks.Nodup) (hmem : ∀ a ∈ l, a ∈ ks) :
    (ks.map fun k => l.count k).sum = l.length := by
  induction l with
  | nil => simp
  | cons a t ih =>
      have hsplit : (ks.map fun k => (a :: t).count k)
          = ks.map fun k => t.count k + if a == k then 1 else 0 := by
        apply List.map_congr_left
        intro k _
        rw [List.count_cons]
      rw [hsplit, sum_map_add_nat,
        ih (fun x hx => hmem x (List.mem_cons_of_mem a hx)),
        sum_map_ite_count,
        count_eq_one_of_nodup_mem hnd (hmem a (List.mem_cons_self a t))]
      simp

lemma bucketOrder_nodup : bucketOrder.Nodup := by decide

lemma age_counts_snd (rs : List Record) :
    (age_counts rs).map Prod.snd
      = bucketOrder.map fun b => (rs.map fun r => categorize_age r.age).count b := by
  unfold age_counts
  rw [map_snd_map_pair]
  apply List.map_congr_left
  intro b _
  exact getD_lookup_valueCounts _ b

/-- C3: the age-bucket counts list has exactly the four fixed buckets as keys,
in the fixed order, and its counts sum to the number of rows; the gender
counts list has only gender values present in the data as keys, and its
counts sum to the number of rows whose gender is not missing. -/
theorem c3_count_aggregation (rs : List Record) :
    ((age_counts rs).map Prod.fst = bucketOrder) ∧
    (((age_counts rs).map Prod.snd).sum = rs.length) ∧
    (∀ g ∈ (gender_counts rs).map Prod.fst, g ∈ genderValues rs) ∧
    (((gender_counts rs).map Prod.snd).sum = rs.countP fun r => r.gender.isSome) := by
  refine ⟨?_, ?_, ?_, ?_⟩
  · unfold age_counts
    exact map_fst_map_pair bucketOrder _
  · rw [age_counts_snd,
      sum_map_count_eq_length _ _ bucketOrder_nodup
        (by rintro x hx
            obtain ⟨r, _, rfl⟩ := List.mem_map.mp hx
            exact categorize_age_mem_bucketOrder r.age)]
    exact rs.length_map _
  · intro g hg
    exact List.mem_dedup.mp (((valueCounts_keys_perm _).mem_iff).mp hg)
  · have h := ((valueCounts_perm (genderValues rs)).map Prod.snd).sum_eq
    unfold gender_counts
    rw [h]
    rw [map_snd_map_pair, List.sum_map_count_dedup_eq_length]
    exact List.length_filterMap_eq_countP _ _

theorem c3_witness :
    "M" ∈ genderValues [Record.mk 25 (some "M") "क्षेत्री"] :=
  (c3_count_aggregation [Record.mk 25 (some "M") "क्षेत्री"]).2.2.1 "M" (by decide)

/-! ### Percentages (line 75) -/

/-- Round half to even (Python's `round` to 0 digits), on exact rationals. -/
def roundHalfEven (q : ℚ) : ℤ :=
  if q - ⌊q⌋ < 1 / 2 then ⌊q⌋
  else if 1 / 2 < q - ⌊q⌋ then ⌊q⌋ + 1
  else if ⌊q⌋ % 2 = 0 then ⌊q⌋ else ⌊q⌋ + 1

/-- Python's `round(x, 1)`, on exact rationals. -/
def round1 (q : ℚ) : ℚ := (roundHalfEven (10 * q) : ℚ) / 10

/-- The comprehension `[round(v / sum(values) * 100, 1) for v in values]`,
evaluated left to right: each element divides by the (pre-computed) total,
which raises `ZeroDivisionError` (modelled as `none`) when the total is zero
— but only if at least one element is actually evaluated. -/
def percList (total : ℕ) : List ℕ → Option (List ℚ)
  | [] => some []
  | v :: vs =>
      if total = 0 then none
      else
        match percList total vs with
        | some ps => some (round1 ((v : ℚ) / (total : ℚ) * 100) :: ps)
        | none => none

/-- The list `percentages` of line 75, taking the count values of a `value_counts`
result. -/
def percentages (values : List ℕ) : Option (List ℚ) :=
  percList values.sum values

lemma percList_isSome_of_total_ne_zero {total : ℕ} (ht : total ≠ 0)
    (values : List ℕ) : (percList total values).isSome = true := by
  induction values with
  | nil => rfl
  | cons v vs ih =>
      simp only [percList, if_neg ht]
      cases hvs : percList total vs with
      | some ps => simp [hvs]
      | none => simp [hvs] at ih

lemma percList_eq_map {total : ℕ} (ht : total ≠ 0) (values : List ℕ) :
    percList total values
      = some (values.map fun v : ℕ => round1 ((v : ℚ) / (total : ℚ) * 100)) := by
  induction values with
  | nil => rfl
  | cons v vs ih => simp [percList, if_neg ht, ih]

lemma percentages_isSome_of_pos {values : List ℕ} (h : ∀ v ∈ values, 0 < v) :
    (percentages values).isSome = true := by
  cases values with
  | nil => rfl
  | cons v vs =>
      have ht : (v :: vs).sum ≠ 0 := by
        have := h v (List.mem_cons_self v vs)
        rw [List.sum_cons]
        omega
      exact percList_isSome_of_total_ne_zero ht _

lemma gender_counts_pos (rs : List Record) :
    ∀ v ∈ (gender_counts rs).map Prod.snd, 0 < v := by
  intro v hv
  obtain ⟨p, hp, rfl⟩ := List.mem_map.mp hv
  have hbase := ((valueCounts_perm (genderValues rs)).mem_iff).mp hp
  obtain ⟨k, hk, rfl⟩ := List.mem_map.mp hbase
  exact List.count_pos_iff.mpr (List.mem_dedup.mp hk)

/-- C2 (counterexample): on the empty record sequence the gender percentage
comprehension iterates over zero elements, so the division is never
evaluated: the computation returns the empty list instead of failing. -/
theorem c2_empty_counterexample :
    percentages ((gender_counts ([] : List Record)).map Prod.snd) = some [] ∧
      percentages ((gender_counts ([] : List Record)).map Prod.snd) ≠ none := by
  constructor <;> decide

/-- C2 (amended): the gender percentage computation never fails: on an empty
dataset the comprehension is empty (no division is performed, result `[]`),
and on a nonempty `value_counts` result every count is positive, so the
total is nonzero.  The spec's division-by-zero is unreachable from the
gender-chart render pass. -/
theorem c2_percentages_never_fail :
    (∀ rs : List Record,
        (percentages ((gender_counts rs).map Prod.snd)).isSome = true) ∧
    percentages ((gender_counts ([] : List Record)).map Prod.snd) = some [] := by
  constructor
  · intro rs
    exact percentages_isSome_of_pos (gender_counts_pos rs)
  · decide

lemma abs_roundHalfEven_sub (q : ℚ) : |(roundHalfEven q : ℚ) - q| ≤ 1 / 2 := by
  have h1 := Int.floor_le q
  have h2 := Int.lt_floor_add_one q
  unfold roundHalfEven
  split_ifs with ha hb hc <;> rw [abs_le] <;> constructor <;> push_cast <;> linarith

lemma abs_round1_sub (q : ℚ) : |round1 q - q| ≤ 1 / 20 := by
  have h := abs_roundHalfEven_sub (10 * q)
  rw [round1]
  have heq : (roundHalfEven (10 * q) : ℚ) / 10 - q
      = ((roundHalfEven (10 * q) : ℚ) - 10 * q) / 10 := by ring
  rw [heq, abs_div]
  rw [show |(10 : ℚ)| = 10 by norm_num]
  linarith

lemma abs_sum_map_round1_sub (l : List ℚ) :
    |(l.map round1).sum - l.sum| ≤ (l.length : ℚ) * (1 / 20) := by
  induction l with
  | nil => simp
  | cons a t ih =>
      rw [List.map_cons, List.sum_cons, List.sum_cons, List.length_cons]
      have h := abs_round1_sub a
      calc |round1 a + (t.map round1).sum - (a + t.sum)|
          = |(round1 a - a) + ((t.map round1).sum - t.sum)| := by ring_nf
        _ ≤ |round1 a - a| + |(t.map round1).sum - t.sum| := abs_add _ _
        _ ≤ 1 / 20 + (t.length : ℚ) * (1 / 20) := by linarith
        _ = ((t.length + 1 : ℕ) : ℚ) * (1 / 20) := by push_cast; ring

lemma sum_map_div_mul (values : List ℕ) (T : ℚ) :
    (values.map fun v : ℕ => (v : ℚ) / T * 100).sum = (values.sum : ℚ) / T * 100 := by
  induction values with
  | nil => simp
  | cons v vs ih =>
      rw [List.map_cons, List.sum_cons, ih, List.sum_cons]
      push_cast
      ring

/-- C5: when the total is positive, `percentages` returns, for each count,
`100 * count / total` rounded to one decimal place, and these rounded values
sum to `100` up to the accumulated rounding tolerance (at most `1/20` per
category).  On gender values `[M, F, F]` the counts are `F ↦ 2, M ↦ 1` and
the percentages are `66.7` and `33.3`. -/
lemma round1_two_thirds : round1 ((2 : ℚ) / 3 * 100) = 667 / 10 := by
  have hq : (10 : ℚ) * ((2 : ℚ) / 3 * 100) = 2000 / 3 := by ring
  have hf : ⌊(2000 : ℚ) / 3⌋ = 666 := by
    rw [Int.floor_eq_iff]
    norm_num
  rw [round1, hq, roundHalfEven, hf]
  norm_num

lemma round1_one_third : round1 ((1 : ℚ) / 3 * 100) = 333 / 10 := by
  have hq : (10 : ℚ) * ((1 : ℚ) / 3 * 100) = 1000 / 3 := by ring
  have hf : ⌊(1000 : ℚ) / 3⌋ = 333 := by
    rw [Int.floor_eq_iff]
    norm_num
  rw [round1, hq, roundHalfEven, hf]
  norm_num

/-- C5: when the total is positive, `percentages` returns, for each count,
`100 * count / total` rounded to one decimal place, and these rounded values
sum to `100` up to the accumulated rounding tolerance (at most `1/20` per
category).  On gender values `[M, F, F]` the counts are `F ↦ 2, M ↦ 1` and
the percentages are `66.7` and `33.3`. -/
theorem c5_percentages_rounding :
    (∀ values : List ℕ, values.sum ≠ 0 →
      percentages values
          = some (values.map fun v : ℕ => round1 ((v : ℚ) / (values.sum : ℚ) * 100)) ∧
      |(values.map fun v : ℕ => round1 ((v : ℚ) / (values.sum : ℚ) * 100)).sum - 100|
          ≤ (values.length : ℚ) * (1 / 20)) ∧
    (gender_counts
        [Record.mk 30 (some "M") "अ", Record.mk 30 (some "F") "अ",
         Record.mk 30 (some "F") "अ"]
      = [("F", 2), ("M", 1)] ∧
     percentages [2, 1] = some [667 / 10, 333 / 10]) := by
  refine ⟨?_, by decide, ?_⟩
  · intro values hs
    refine ⟨percList_eq_map hs values, ?_⟩
    have hT : ((values.sum : ℕ) : ℚ) ≠ 0 := Nat.cast_ne_zero.mpr hs
    have h100 : (values.map fun v : ℕ => (v : ℚ) / (values.sum : ℚ) * 100).sum = 100 := by
      rw [sum_map_div_mul, div_self hT, one_mul]
    have hb := abs_sum_map_round1_sub
      (values.map fun v : ℕ => (v : ℚ) / (values.sum : ℚ) * 100)
    rw [List.map_map, h100, List.length_map] at hb
    exact hb
  · have h1 := percList_eq_map (by norm_num : (3 : ℕ) ≠ 0) [2, 1]
    have h2 : percentages [2, 1] = percList 3 [2, 1] := rfl
    rw [h2, h1]
    simp only [List.map_cons, List.map_nil]
    push_cast
    rw [round1_two_thirds, round1_one_third]

theorem c5_witness :
    percentages [2, 1]
      = some ([2, 1].map fun v : ℕ => round1 ((v : ℚ) / ((3 : ℕ) : ℚ) * 100)) :=
  (c5_percentages_rounding.1 [2, 1] (by decide)).1

/-! ### Top-N caste cross-tabulation (lines 113–116) -/

/-- Model of `df['जाति'].value_counts().head(top_n).index.tolist()` (line 114):
the keys of the first `n` entries of the count-sorted caste counts. -/
def top_castes (rs : List Record) (n : ℕ) : List String :=
  ((valueCounts (rs.map fun r => r.caste)).take n).map Prod.fst

/-- Model of `filtered = df[df['जाति'].isin(top_castes)]` (line 115). -/
def filteredRecords (rs : List Record) (n : ℕ) : List Record :=
  rs.filter fun r => decide (r.caste ∈ top_castes rs n)

/-- The `(जाति, लिङ्ग)` keys of `filtered.groupby(['जाति', 'लिङ्ग'])`
(line 116): one pair per filtered row whose gender is present — pandas
silently drops rows in which any group key is missing. -/
def groupPairs (rs : List Record) (n : ℕ) : List (String × String) :=
  (filteredRecords rs n).filterMap fun r => r.gender.map fun g => (r.caste, g)

/-- The row index of `grouped = ....size().unstack(fill_value=0)`: `unstack`
keeps a caste exactly when at least one `(caste, gender)` group exists for
it.  (pandas sorts the index; the verified properties are order-free, so the
model keeps the deduplicated encounter order.) -/
def groupedRows (rs : List Record) (n : ℕ) : List String :=
  ((groupPairs rs n).map Prod.fst).dedup

/-- The column index of `grouped`: the gender values occurring among the
groups. -/
def groupedCols (rs : List Record) (n : ℕ) : List String :=
  ((groupPairs rs n).map Prod.snd).dedup

/-- The cell of `grouped` at `(caste, gender)`: the size of that group,
`0` when `unstack(fill_value=0)` fills a hole. -/
def groupedCount (rs : List Record) (n : ℕ) (c g : String) : ℕ :=
  (groupPairs rs n).count (c, g)

/-- C4 (counterexample): a selected caste need not appear in the output.
With the single record `(caste A, missing gender)` and `N = 5`, caste `A`
is selected by frequency, but its only row has a missing gender, so
`groupby` drops it and `A` is absent from the cross-tab's rows. -/
theorem c4_missing_gender_counterexample :
    "A" ∈ top_castes [Record.mk 0 none "A"] 5 ∧
      "A" ∉ groupedRows [Record.mk 0 none "A"] 5 := by
  constructor <;> decide

lemma count_groupPairs (l : List Record) (c g : String) :
    (l.filterMap fun r => r.gender.map fun g' => (r.caste, g')).count (c, g)
      = l.countP fun r => r.caste == c && r.gender == some g := by
  induction l with
  | nil => rfl
  | cons r t ih =>
      cases hg : r.gender with
      | none => simp [List.filterMap_cons, hg, List.countP_cons, ih]
      | some g' =>
          rw [List.filterMap_cons]
          simp only [hg, Option.map_some']
          rw [List.count_cons, List.countP_cons, ih]
          congr 1
          by_cases hc : r.caste = c
          · by_cases hgg : g' = g
            · subst hc; subst hgg; simp [hg]
            · simp [hg, hc, hgg, Ne.symm hgg]
          · simp [hg, hc, Ne.symm hc]

lemma mem_groupedRows_iff (rs : List Record) (n : ℕ) (c : String) :
    c ∈ groupedRows rs n ↔
      c ∈ top_castes rs n ∧ ∃ r ∈ rs, r.caste = c ∧ r.gender.isSome = true := by
  unfold groupedRows groupPairs filteredRecords
  rw [List.mem_dedup]
  constructor
  · intro h
    obtain ⟨p, hp, rfl⟩ := List.mem_map.mp h
    obtain ⟨r, hr, hmap⟩ := List.mem_filterMap.mp hp
    cases hgen : r.gender with
    | none => rw [hgen] at hmap; cases hmap
    | some g =>
        rw [hgen, Option.map_some'] at hmap
        obtain rfl := Option.some.inj hmap
        have hrf := List.mem_filter.mp hr
        exact ⟨by simpa using hrf.2, r, hrf.1, rfl, by rw [hgen]; rfl⟩
  · rintro ⟨hsel, r, hr, rfl, hsome⟩
    cases hgen : r.gender with
    | none => rw [hgen] at hsome; cases hsome
    | some g =>
        apply List.mem_map.mpr
        refine ⟨(r.caste, g), ?_, rfl⟩
        apply List.mem_filterMap.mpr
        refine ⟨r, ?_, by rw [hgen]; rfl⟩
        exact List.mem_filter.mpr ⟨hr, by simpa using hsel⟩

lemma mem_groupedCols_iff (rs : List Record) (n : ℕ) (g : String) :
    g ∈ groupedCols rs n ↔
      ∃ r ∈ rs, r.caste ∈ top_castes rs n ∧ r.gender = some g := by
  unfold groupedCols groupPairs filteredRecords
  rw [List.mem_dedup]
  constructor
  · intro h
    obtain ⟨p, hp, rfl⟩ := List.mem_map.mp h
    obtain ⟨r, hr, hmap⟩ := List.mem_filterMap.mp hp
    cases hgen : r.gender with
    | none => rw [hgen] at hmap; cases hmap
    | some g' =>
        rw [hgen, Option.map_some'] at hmap
        obtain rfl := Option.some.inj hmap
        have hrf := List.mem_filter.mp hr
        exact ⟨r, hrf.1, by simpa using hrf.2, hgen⟩
  · rintro ⟨r, hr, hsel, hgen⟩
    apply List.mem_map.mpr
    refine ⟨(r.caste, g), ?_, rfl⟩
    apply List.mem_filterMap.mpr
    refine ⟨r, ?_, by rw [hgen]; rfl⟩
    exact List.mem_filter.mpr ⟨hr, by simpa using hsel⟩

lemma top_castes_complete {rs : List Record} {n : ℕ}
    (h : (rs.map fun r => r.caste).dedup.length ≤ n) :
    ∀ c ∈ rs.map fun r => r.caste, c ∈ top_castes rs n := by
  intro c hc
  unfold top_castes
  have hlen : (valueCounts (rs.map fun r => r.caste)).length ≤ n := by
    rw [(valueCounts_perm (rs.map fun r => r.caste)).length_eq, List.length_map]
    exact h
  rw [List.take_of_length_le hlen]
  exact ((valueCounts_keys_perm _).mem_iff).mpr (List.mem_dedup.mpr hc)

/-- C4 (amended): the cross-tab cell at `(caste, gender)` always equals the
spec's reference count — occurrences of the pair among the rows restricted
to the selected castes (hence `0`-filled holes) — and its column index is
exactly the genders present among the restricted rows; however a selected
caste appears among the rows only when it has at least one restricted row
with a non-missing gender (a caste all of whose rows lack a gender is
dropped).  When `N` is at least the number of distinct castes, every caste
is selected. -/
theorem c4_crosstab_spec (rs : List Record) (n : ℕ) :
    (∀ c g : String, groupedCount rs n c g
        = (filteredRecords rs n).countP fun r => r.caste == c && r.gender == some g) ∧
    (∀ c : String, c ∈ groupedRows rs n ↔
        c ∈ top_castes rs n ∧ ∃ r ∈ rs, r.caste = c ∧ r.gender.isSome = true) ∧
    (∀ g : String, g ∈ groupedCols rs n ↔
        ∃ r ∈ rs, r.caste ∈ top_castes rs n ∧ r.gender = some g) ∧
    ((rs.map fun r => r.caste).dedup.length ≤ n →
      ∀ c ∈ rs.map fun r => r.caste, c ∈ top_castes rs n) := by
  exact ⟨fun c g => count_groupPairs _ c g, mem_groupedRows_iff rs n,
    mem_groupedCols_iff rs n, top_castes_complete⟩

theorem c4_witness :
    "A" ∈ groupedRows [Record.mk 30 (some "M") "A"] 5 :=
  ((c4_crosstab_spec [Record.mk 30 (some "M") "A"] 5).2.1 "A").mpr
    ⟨by decide, Record.mk 30 (some "M") "A", List.mem_singleton_self _, rfl, rfl⟩

/-- C10: summing every cell of the cross-tab (over its row and column
indices) counts exactly the records whose caste is among the selected top-N
castes and whose gender is not missing; rows with a missing gender are
silently excluded even when their caste is selected. -/
theorem c10_crosstab_total (rs : List Record) (n : ℕ) :
    (((groupedRows rs n) ×ˢ (groupedCols rs n)).map
        fun p => groupedCount rs n p.1 p.2).sum
      = rs.countP fun r => r.gender.isSome && decide (r.caste ∈ top_castes rs n) := by
  have hnd : ((groupedRows rs n) ×ˢ (groupedCols rs n)).Nodup :=
    (List.nodup_dedup _).product (List.nodup_dedup _)
  have hmem : ∀ p ∈ groupPairs rs n, p ∈ (groupedRows rs n) ×ˢ (groupedCols rs n) := by
    intro p hp
    obtain ⟨a, b⟩ := p
    rw [List.mem_product]
    exact ⟨List.mem_dedup.mpr (List.mem_map_of_mem Prod.fst hp),
      List.mem_dedup.mpr (List.mem_map_of_mem Prod.snd hp)⟩
  have hsum := sum_map_count_eq_length (groupPairs rs n)
    ((groupedRows rs n) ×ˢ (groupedCols rs n)) hnd hmem
  have hcell : (((groupedRows rs n) ×ˢ (groupedCols rs n)).map
      fun p => groupedCount rs n p.1 p.2)
      = ((groupedRows rs n) ×ˢ (groupedCols rs n)).map
          fun p => (groupPairs rs n).count p := by
    apply List.map_congr_left
    intro p _
    obtain ⟨a, b⟩ := p
    rfl
  rw [hcell, hsum]
  unfold groupPairs filteredRecords
  rw [List.length_filterMap_eq_countP, List.countP_filter]
  apply List.countP_congr
  intro r _
  simp [Option.isSome_map']

end ExcelViz
